import Mathlib

/-!
# A shallow embedding of `jsonj` (package `jsonj`, file `injector.go`)

The Go library rewrites raw JSON text by locating object keys ("marks") and
replacing, inserting after, or deleting their key/value pairs.  This file
embeds the source functions over `List Char` (one `Char` per input byte; the
code is byte-oriented and all bytes it inspects are ASCII) and proves the
frozen claims about them.

Modelling conventions:
* Go functions that can `panic` are embedded into the `Outcome` monad below,
  with `Outcome.crashed` standing for a runtime panic (explicit `panic`
  calls, out-of-range slice expressions, and the reflection shape check).
  An error *returned* by a function is `Outcome.err`, kept distinct from a
  panic exactly as Go keeps them distinct.
* Go slice expressions `data[a:b]` are embedded by `goSlice`, which crashes
  when `a > b` or `b > data.length`, matching Go's bounds rules.
* Loops over byte indexes become structural recursions over the remaining
  suffix of the list (carrying the absolute index where the source uses it);
  the mutually recursive bracket scanner carries explicit fuel, instantiated
  at call sites with a bound that the Go loops can never exceed.
* `sync.Pool` buffer reuse, `context.Context` plumbing and the opaque
  `Params` value are dropped: they do not affect the bytes produced, and
  generators are modelled as closures over whatever context they need.
-/

namespace Jsonj

/-- Outcome of running a piece of Go code: a value, a returned error, or a
runtime panic. -/
inductive Outcome (ε : Type) (α : Type) where
  | ok : α → Outcome ε α
  | err : ε → Outcome ε α
  | crashed : Outcome ε α
  deriving DecidableEq, Repr

namespace Outcome

def bind : Outcome ε α → (α → Outcome ε β) → Outcome ε β
  | ok a, f => f a
  | err e, _ => err e
  | crashed, _ => crashed

instance : Monad (Outcome ε) where
  pure := ok
  bind := bind

end Outcome

/-- `asciiSpace` table of `injector.go`: `'\t' '\n' '\v' '\f' '\r' ' '`. -/
def asciiSpace (c : Char) : Bool :=
  c = '\t' ∨ c = '\n' ∨ c = (Char.ofNat 11) ∨ c = (Char.ofNat 12) ∨ c = '\r' ∨ c = ' '

/-- The whitespace class of the mark regexp `[ \t\n\r]` (note: narrower than
`asciiSpace`). -/
def reWs (c : Char) : Bool :=
  c = ' ' ∨ c = '\t' ∨ c = '\n' ∨ c = '\r'

/-- Loop body of `findJSONStringEnd`: `rem` is the suffix after the opening
quote, `i` the absolute index of its head.  `'\\'` consumes the next byte,
`'"'` ends the string; running off the end is the source `panic`. -/
def strEndAux : List Char → Nat → Option Nat
  | [], _ => none
  | c :: rest, i =>
    if c = '"' then some i
    else if c = '\\' then
      match rest with
      | [] => none
      | _ :: rest2 => strEndAux rest2 (i + 2)
    else strEndAux rest (i + 1)

/-- `findJSONStringEnd(data)`: index of the closing quote of the quoted
string that `data` starts with (`none` = the source's `panic`). -/
def findJSONStringEnd (data : List Char) : Option Nat :=
  strEndAux (data.drop 1) 1

/-- Loop body of `findJSONNumberEnd`: index of the first byte after the
maximal run of `[+-0-9eE.]` (`none` = running off the end, a `panic`). -/
def numEndAux : List Char → Nat → Option Nat
  | [], _ => none
  | c :: rest, i => if numChar c then numEndAux rest (i + 1) else some i
where
  /-- The byte class of the `findJSONNumberEnd` switch. -/
  numChar (c : Char) : Bool :=
    c = '+' ∨ c = '-' ∨ ('0' ≤ c ∧ c ≤ '9') ∨ c = 'e' ∨ c = 'E' ∨ c = '.'

/-- `findJSONNumberEnd(data)`: length of the leading number of `data`. -/
def findJSONNumberEnd (data : List Char) : Option Nat :=
  numEndAux (data.drop 1) 1

mutual

/-- `findJSONValueEnd(data)`: index of the bracket closing the object/array
that `data` starts with.  The Go recursion on `data[c:]` is embedded with
explicit fuel; every recursive call strictly shrinks the suffix, so any fuel
of at least `data.length + 1` is enough. -/
def findJSONValueEnd : Nat → List Char → Option Nat
  | 0, _ => none
  | fuel + 1, data =>
    let e : Char :=
      match data.head? with
      | some '{' => '}'
      | some '[' => ']'
      | _ => Char.ofNat 0
    valEndLoop fuel e (data.drop 1) 1

/-- The scanning loop of `findJSONValueEnd`: `rem` is the unscanned suffix,
`c` the absolute index of its head, `e` the closing bracket looked for. -/
def valEndLoop : Nat → Char → List Char → Nat → Option Nat
  | 0, _, _, _ => none
  | fuel + 1, e, rem, c =>
    match rem with
    | [] => none
    | ch :: rest =>
      if ch = '"' then
        match findJSONStringEnd rem with
        | none => none
        | some k => valEndLoop fuel e (rem.drop (k + 1)) (c + k + 1)
      else if ch = '{' ∨ ch = '[' then
        match findJSONValueEnd fuel rem with
        | none => none
        | some k => valEndLoop fuel e (rem.drop (k + 1)) (c + k + 1)
      else if ch = e then some c
      else valEndLoop fuel e rest (c + 1)

end

def nullLiteral : List Char := ['n', 'u', 'l', 'l']
def trueLiteral : List Char := ['t', 'r', 'u', 'e']
def falseLiteral : List Char := ['f', 'a', 'l', 's', 'e']

/-- Loop of `findJSONFragmentEnd`: skip `asciiSpace` bytes, then classify the
first value byte and delegate; anything unrecognized is the source `panic`.
The literal comparisons embed `bytes.Equal(data[i:i+n], lit)` as a `take`
equality (when fewer than `n` bytes remain the comparison fails and the
function falls through to the `panic`, as the Go slice expression would). -/
def fragEndAux : List Char → Nat → Option Nat
  | [], _ => none
  | c :: rest, i =>
    if asciiSpace c then fragEndAux rest (i + 1)
    else if c = '"' then
      (findJSONStringEnd (c :: rest)).map (fun k => i + k + 1)
    else if c = '[' ∨ c = '{' then
      (findJSONValueEnd (rest.length + 2) (c :: rest)).map (fun k => i + k + 1)
    else if c = '-' ∨ ('0' ≤ c ∧ c ≤ '9') then
      (findJSONNumberEnd (c :: rest)).map (fun k => i + k)
    else if c = 'n' ∧ (c :: rest).take 4 = nullLiteral then some (i + 4)
    else if c = 't' ∧ (c :: rest).take 4 = trueLiteral then some (i + 4)
    else if c = 'f' ∧ (c :: rest).take 5 = falseLiteral then some (i + 5)
    else none

/-- `findJSONFragmentEnd(data)`: offset one past the end of the JSON value
that `data` starts with, after leading ASCII whitespace. -/
def findJSONFragmentEnd (data : List Char) : Option Nat :=
  fragEndAux data 0

/-- `findCommaPos(data)`: position of the first comma, skipping only
whitespace.  `some (some k)` = `(k, true)`, `some none` = `(-1, false)`,
`none` = the source `panic` on an all-whitespace suffix. -/
def findCommaPos : List Char → Option (Option Nat) :=
  go 0
where
  go (i : Nat) : List Char → Option (Option Nat)
    | [] => none
    | c :: rest =>
      if asciiSpace c then go (i + 1) rest
      else if c = ',' then some (some i)
      else some none

end Jsonj

namespace Jsonj

/-! ## Rules, modes and fragment values -/

/-- `RuleMode` of the source, including the zero value. -/
inductive RuleMode where
  | ModeUndefined
  | ModeInsert
  | ModeDelete
  | ModeReplace
  | ModeReplaceValue
  deriving DecidableEq, Repr

/-- A dynamically typed Go fragment value as the engine observes it: its
reflection shape (struct / non-struct, possibly behind pointers) and the
bytes `encoding/json` produces for it.  `json.Encoder.Encode` appends a
newline which `writeFragment` trims again, so the net bytes are `enc`;
encoding errors for unmarshalable values are not modelled (no claim
depends on them). -/
inductive GoValue where
  | strukt (enc : List Char)
  | nonStruct (enc : List Char)
  | ptr (v : GoValue)
  deriving DecidableEq, Repr

/-- Bytes produced by `encoding/json` for the value (pointers are encoded
through). -/
def GoValue.encodeJSON : GoValue → List Char
  | .strukt e => e
  | .nonStruct e => e
  | .ptr v => v.encodeJSON

/-- `reflect.Indirect`: strips one pointer level, identity otherwise. -/
def GoValue.reflectIndirect : GoValue → GoValue
  | .ptr v => v
  | v => v

/-- Whether `reflect.Value.Kind()` is `reflect.Struct`. -/
def GoValue.kindIsStruct : GoValue → Bool
  | .strukt _ => true
  | _ => false

/-- A batch generator: receives the raw bytes of every matched value span
(in order) and yields one fragment per span, or an error.  Context and the
opaque params value are captured in the closure. -/
def GenerateFragmentBatchFunc : Type := List (List Char) → Except String (List GoValue)

/-- `EmptyFragmentsGenerator`: one `struct{}{}` per occurrence (its JSON
encoding is `{}` and its kind is `Struct`). -/
def EmptyFragmentsGenerator : GenerateFragmentBatchFunc :=
  fun spans => .ok (spans.map fun _ => GoValue.strukt ['{', '}'])

structure Rule where
  mark : String
  preparedKey : List Char
  mode : RuleMode
  genBatch : GenerateFragmentBatchFunc

/-- `strings.ReplaceAll(key, quote, backslash-quote)`. -/
def escapeQuotes : List Char → List Char
  | [] => []
  | c :: r => if c = '"' then '\\' :: '"' :: escapeQuotes r else c :: escapeQuotes r

/-- The `preparedKey` computation of `NewRule`: quote-escape and wrap. -/
def prepareKey (key : String) : List Char :=
  '"' :: escapeQuotes key.toList ++ ['"']

/-- `NewRule`.  `none` is a construction-time panic.  The generator argument
is `Option` because the source distinguishes a nil `batchFunc`. -/
def NewRule (mode : RuleMode) (mark key : String)
    (batchFunc : Option GenerateFragmentBatchFunc) : Option Rule :=
  if mode = RuleMode.ModeUndefined then none
  else if mark = "" then none
  else if mode ≠ RuleMode.ModeReplaceValue ∧ mark = key then none
  else if mode = RuleMode.ModeDelete then
    some ⟨mark, [], RuleMode.ModeDelete, EmptyFragmentsGenerator⟩
  else
    match batchFunc with
    | none => none
    | some g =>
      if mode ≠ RuleMode.ModeReplace ∧ key = "" then none
      else some ⟨mark, prepareKey key, mode, g⟩

def NewInsertRule (mark key : String) (g : GenerateFragmentBatchFunc) : Option Rule :=
  NewRule RuleMode.ModeInsert mark key (some g)

def NewReplaceRule (mark : String) (g : GenerateFragmentBatchFunc) : Option Rule :=
  NewRule RuleMode.ModeReplace mark "" (some g)

def NewReplaceValueRule (mark key : String) (g : GenerateFragmentBatchFunc) : Option Rule :=
  NewRule RuleMode.ModeReplaceValue mark key (some g)

def NewDeleteRule (mark : String) : Option Rule :=
  NewRule RuleMode.ModeDelete mark "" none

/-! ## The mark matcher

The source compiles the regexp `(,[ \t\n\r]*)?"(<marks>)"[ \t\n\r]*:` (marks
are `QuoteMeta`-escaped, hence matched literally) and walks the buffer with
`FindSubmatchIndex`.  Go's regexp has leftmost-first semantics: the match
with the smallest start wins, and at a given start the optional comma group
is tried greedily (it can match empty only when the position does not hold a
comma) and alternation is tried in pattern order.  That search is embedded
as an explicit scanner below; rule-set map order is modelled as list
order. -/

/-- Count of leading `[ \t\n\r]` whitespace. -/
def reWsCount : List Char → Nat
  | [] => 0
  | c :: r => if reWs c then reWsCount r + 1 else 0

/-- Try `"<m>"[ \t\n\r]*:` at the head of `s`; return the matched length. -/
def tryMark (s : List Char) (m : String) : Option Nat :=
  let q := '"' :: m.toList ++ ['"']
  if q.isPrefixOf s then
    let s1 := s.drop q.length
    let k := reWsCount s1
    match (s1.drop k).head? with
    | some ':' => some (q.length + k + 1)
    | _ => none
  else none

/-- First alternative (in pattern order) whose full continuation matches. -/
def tryMarks (s : List Char) : List String → Option (String × Nat)
  | [] => none
  | m :: ms =>
    match tryMark s m with
    | some n => some (m, n)
    | none => tryMarks s ms

/-- One submatch record: comma position (when the optional group matched),
mark name, offset of the key's opening quote, offset just after the colon
(`loc[1]`, the value start). -/
structure MatchHead where
  commaPos : Option Nat
  mark : String
  markPos : Nat
  argsPos : Nat
  deriving DecidableEq, Repr

/-- Does the pattern match starting exactly at position `l`? -/
def matchAtPos (data : List Char) (marks : List String) (l : Nat) : Option MatchHead :=
  let s := data.drop l
  match s.head? with
  | some ',' =>
    let s1 := s.drop 1
    let k := reWsCount s1
    match tryMarks (s1.drop k) marks with
    | some (m, n) => some ⟨some l, m, l + 1 + k, l + 1 + k + n⟩
    | none => none
  | some '"' =>
    match tryMarks s marks with
    | some (m, n) => some ⟨none, m, l, l + n⟩
    | none => none
  | _ => none

/-- Leftmost match at position `≥ i` (the `FindSubmatchIndex` call on
`data[i:]`). -/
def findMatch (data : List Char) (marks : List String) (i : Nat) : Option MatchHead :=
  go (data.length + 1 - i) i
where
  go : Nat → Nat → Option MatchHead
    | 0, _ => none
    | fuel + 1, l =>
      match matchAtPos data marks l with
      | some h => some h
      | none => if l < data.length then go fuel (l + 1) else none

/-- A matched occurrence with its value span (`fragEntry` sans rule and
fragment). -/
structure FragEntry where
  mark : String
  commaPos : Option Nat
  markPos : Nat
  argsPos : Nat
  endPos : Nat
  deriving DecidableEq, Repr

/-- The `iterateMarks` loop: find the next match after `i`, delimit its
value with the span scanner, continue after the value.  `none` is the
scanner's panic on an undelimitable value. -/
def iterateMarksAux (data : List Char) (marks : List String) :
    Nat → Nat → Option (List FragEntry)
  | 0, _ => none
  | fuel + 1, i =>
    match findMatch data marks i with
    | none => some []
    | some h =>
      match findJSONFragmentEnd (data.drop h.argsPos) with
      | none => none
      | some flen =>
        let ep := h.argsPos + flen
        (iterateMarksAux data marks fuel ep).map
          (⟨h.mark, h.commaPos, h.markPos, h.argsPos, ep⟩ :: ·)

/-- All matches of a pass, in source order.  Every iteration moves `i` past
at least the three bytes `"<mark>":`, so `data.length + 1` fuel is never
exhausted on the runs the source performs. -/
def scanEntries (data : List Char) (marks : List String) : Option (List FragEntry) :=
  iterateMarksAux data marks (data.length + 1) 0

end Jsonj

namespace Jsonj

/-! ## Errors and the pass engine -/

/-- Returned (non-panic) errors of the engine: a generator failure wrapped
with the failing rule's identity (`fmt.Errorf` in `doPassBatch`), and the
per-iteration wrap of `Process` (`unable to do pass %d`). -/
inductive PErr where
  | genErr (mode : RuleMode) (mark : String) (msg : String)
  | passErr (i : Nat) (inner : PErr)
  deriving DecidableEq, Repr

/-- The Go slice expression `data[a:b]`: crashes unless `a ≤ b ≤ len`. -/
def goSlice (data : List Char) (a b : Nat) : Outcome PErr (List Char) :=
  if a ≤ b ∧ b ≤ data.length then .ok ((data.drop a).take (b - a)) else .crashed

/-- `fragEntry.writeForInsertMode`: reflection shape check (panic on a
non-struct after one `Indirect`), then the encoded fragment with the opening
brace replaced by `','` and the closing brace dropped; an empty-object
encoding writes nothing.  Returns the bytes appended to the buffer. -/
def writeForInsertMode (v : GoValue) : Outcome PErr (List Char) :=
  if ¬ v.reflectIndirect.kindIsStruct then .crashed
  else if v.encodeJSON = ['{', '}'] then .ok []
  else
    match v.encodeJSON with
    | [] => .crashed
    | _ :: tail => .ok ((',' :: tail).dropLast)

/-- `fragEntry.writeForReplaceMode`: as insert but the opening brace becomes
`' '` and no shape check; also returns the source's `count` (0 exactly when
the old pair must be kept). -/
def writeForReplaceMode (v : GoValue) : Outcome PErr (List Char × Nat) :=
  if v.encodeJSON = ['{', '}'] then .ok ([], 0)
  else
    match v.encodeJSON with
    | [] => .crashed
    | _ :: tail => .ok ((' ' :: tail).dropLast, v.encodeJSON.length - 1)

/-- `fragEntry.writeForReplaceValueMode`: the encoded fragment verbatim. -/
def writeForReplaceValueMode (v : GoValue) : Outcome PErr (List Char) :=
  .ok v.encodeJSON

/-- A match entry resolved to its rule and generated fragment. -/
structure ResolvedFrag where
  rule : Rule
  entry : FragEntry
  fragment : GoValue

/-- `expandDataFragments`: walk the entries in source order, copying the
untouched range before each and splicing per mode; `pos` is the source
cursor, `acc` the output buffer. -/
def expandDataFragments (data : List Char) :
    List ResolvedFrag → Nat → List Char → Outcome PErr (List Char)
  | [], pos, acc => do
    let tail ← goSlice data pos data.length
    .ok (acc ++ tail)
  | f :: rest, pos, acc =>
    match f.rule.mode with
    | RuleMode.ModeReplaceValue => do
      let pre ← goSlice data pos f.entry.markPos
      let w ← writeForReplaceValueMode f.fragment
      expandDataFragments data rest f.entry.endPos
        (acc ++ pre ++ f.rule.preparedKey ++ [':'] ++ w)
    | RuleMode.ModeReplace => do
      let pre ← goSlice data pos f.entry.markPos
      let wc ← writeForReplaceMode f.fragment
      if wc.2 = 0 then do
        let orig ← goSlice data f.entry.markPos f.entry.endPos
        expandDataFragments data rest f.entry.endPos (acc ++ pre ++ wc.1 ++ orig)
      else
        expandDataFragments data rest f.entry.endPos (acc ++ pre ++ wc.1)
    | RuleMode.ModeInsert => do
      let pre ← goSlice data pos f.entry.markPos
      let v ← goSlice data f.entry.argsPos f.entry.endPos
      let w ← writeForInsertMode f.fragment
      expandDataFragments data rest f.entry.endPos
        (acc ++ pre ++ f.rule.preparedKey ++ [':'] ++ v ++ w)
    | RuleMode.ModeDelete =>
      match f.entry.commaPos with
      | some cp =>
        if 0 < cp then do
          let pre ← goSlice data pos cp
          expandDataFragments data rest f.entry.endPos (acc ++ pre)
        else do
          let pre ← goSlice data pos f.entry.markPos
          match findCommaPos (data.drop f.entry.endPos) with
          | none => .crashed
          | some (some k) =>
            expandDataFragments data rest (f.entry.endPos + k + 1) (acc ++ pre)
          | some none => expandDataFragments data rest f.entry.endPos (acc ++ pre)
      | none => do
        let pre ← goSlice data pos f.entry.markPos
        match findCommaPos (data.drop f.entry.endPos) with
        | none => .crashed
        | some (some k) =>
          expandDataFragments data rest (f.entry.endPos + k + 1) (acc ++ pre)
        | some none => expandDataFragments data rest f.entry.endPos (acc ++ pre)
    | RuleMode.ModeUndefined => expandDataFragments data rest pos acc

/-- Raw bytes of each entry's value span, as the fragment iterator exposes
them to the generator (`data[argsPos:endPos]`). -/
def spansOf (data : List Char) (es : List FragEntry) : List (List Char) :=
  es.map (fun e => (data.drop e.argsPos).take (e.endPos - e.argsPos))

/-- The generation stage of `doPassBatch`: invoke each rule's generator once
with its bucket of entries (rules without matches are skipped), in rule-set
order (Go iterates a map here, the order of which is unspecified; list order
stands in for it).  Returns the per-rule fragment lists and the number of
generator invocations; a wrong-length result is the source's panic. -/
def genForRules (data : List Char) (entries : List FragEntry) :
    List Rule → Outcome PErr (List (String × List GoValue) × Nat)
  | [] => .ok ([], 0)
  | r :: rs =>
    let bucket := entries.filter (fun e => e.mark = r.mark)
    if bucket.isEmpty then genForRules data entries rs
    else
      match r.genBatch (spansOf data bucket) with
      | .error msg => .err (.genErr r.mode r.mark msg)
      | .ok result =>
        if result.length ≠ bucket.length then .crashed
        else do
          let tn ← genForRules data entries rs
          .ok ((r.mark, result) :: tn.1, tn.2 + 1)

/-- Hand each entry (in source order) the next unconsumed fragment of its
rule's batch, mirroring the positional `list[i].fragment = result[i]`
assignment. -/
def assignFrags : List FragEntry → List (String × List GoValue) →
    Option (List (FragEntry × GoValue))
  | [], _ => some []
  | e :: es, tbl =>
    match lookupHead tbl e.mark with
    | none => none
    | some (v, tbl2) => (assignFrags es tbl2).map ((e, v) :: ·)
where
  lookupHead : List (String × List GoValue) → String →
      Option (GoValue × List (String × List GoValue))
    | [], _ => none
    | (m, vs) :: t, k =>
      if m = k then
        match vs with
        | [] => none
        | v :: vr => some (v, (m, vr) :: t)
      else (lookupHead t k).map (fun p => (p.1, (m, vs) :: p.2))

/-- `set.rules[mark]` lookup (marks are unique within a set). -/
def ruleFor (rules : List Rule) (m : String) : Option Rule :=
  rules.find? (fun r => r.mark = m)

def resolveRules (rules : List Rule) :
    List (FragEntry × GoValue) → Option (List ResolvedFrag)
  | [] => some []
  | (e, v) :: rest =>
    match ruleFor rules e.mark with
    | none => none
    | some r => (resolveRules rules rest).map (⟨r, e, v⟩ :: ·)

/-- `doPassBatch`: scan, group, generate, reassemble.  Also reports how many
generator invocations the pass made (observable behavior the claims talk
about; the Go code has exactly one `genBatch` call per rule with a non-empty
bucket). -/
def doPassBatch (data : List Char) (rules : List Rule) :
    Outcome PErr (List Char × Nat) :=
  match scanEntries data (rules.map (fun r => r.mark)) with
  | none => .crashed
  | some entries =>
    if entries.isEmpty then .ok (data, 0)
    else
      match genForRules data entries rules with
      | .err e => .err e
      | .crashed => .crashed
      | .ok (tbl, n) =>
        match assignFrags entries tbl with
        | none => .crashed
        | some pairs =>
          match resolveRules rules pairs with
          | none => .crashed
          | some resolved => do
            let out ← expandDataFragments data resolved 0 []
            .ok (out, n)

/-- A `Pass` pairs a rule set with its repeat count. -/
structure Pass where
  rules : List Rule
  repeats : Nat

/-- The repeat loop of `Process` for one pass; `i` is the iteration index
used in the error wrap, `calls` the accumulated generator-invocation
count. -/
def runRepeats (rules : List Rule) : Nat → Nat → List Char → Nat →
    Outcome PErr (List Char × Nat)
  | 0, _, data, calls => .ok (data, calls)
  | n + 1, i, data, calls =>
    match doPassBatch data rules with
    | .ok (out, k) => runRepeats rules n (i + 1) out (calls + k)
    | .err e => .err (.passErr i e)
    | .crashed => .crashed

def runPasses : List Pass → List Char → Nat → Outcome PErr (List Char × Nat)
  | [], data, calls => .ok (data, calls)
  | p :: ps, data, calls => do
    let oc ← runRepeats p.rules p.repeats 0 data calls
    runPasses ps oc.1 oc.2

/-- `Process`: degenerate-input shortcut (`len(input) <= 2`), empty pass
list shortcut, then the pass/repeat loops threading each output into the
next iteration.  The result carries the total generator-invocation count. -/
def Process (input : List Char) (passes : List Pass) :
    Outcome PErr (List Char × Nat) :=
  if input.length ≤ 2 then .ok (input, 0)
  else if passes.isEmpty then .ok (input, 0)
  else runPasses passes input 0

end Jsonj

namespace Jsonj

/-! ## Concrete fixtures used by the witnesses and counterexamples -/

/-- Wrap a byte sequence in an object's braces. -/
def wrapBraces (s : List Char) : List Char := '{' :: s ++ ['}']

/-- The `{"meta":{"length":5}}` fragment of the package test. -/
def metaFragment : List Char :=
  wrapBraces ("\"meta\":".toList ++ wrapBraces ("\"length\":5".toList))

/-- A generator producing the struct-shaped meta fragment for every
occurrence (the package test's `generateMeta` on the value `"value"`). -/
def genMeta : GenerateFragmentBatchFunc :=
  fun spans => .ok (spans.map fun _ => GoValue.strukt metaFragment)

/-- A generator producing, for every occurrence, a Go `map` value that
serializes to the valid JSON object with one pair `"a": 1`. -/
def genMapFragment : GenerateFragmentBatchFunc :=
  fun spans => .ok (spans.map fun _ => GoValue.nonStruct (wrapBraces ("\"a\":1".toList)))

/-- A generator that always fails. -/
def genFail : GenerateFragmentBatchFunc := fun _ => .error "lookup failed"

/-- Placeholder for `Option.getD` on rule constructions known to succeed. -/
def dummyRule : Rule := ⟨"", [], RuleMode.ModeUndefined, EmptyFragmentsGenerator⟩

def insMeta : Rule := (NewInsertRule "mark" "key" genMeta).getD dummyRule
def insEmpty : Rule := (NewInsertRule "mark" "key" EmptyFragmentsGenerator).getD dummyRule
def repEmpty : Rule := (NewReplaceRule "mark" EmptyFragmentsGenerator).getD dummyRule
def delMark : Rule := (NewDeleteRule "mark").getD dummyRule
def delM : Rule := (NewDeleteRule "m").getD dummyRule
def insMapM : Rule := (NewInsertRule "m" "key" genMapFragment).getD dummyRule
def insFailM : Rule := (NewInsertRule "m" "key" genFail).getD dummyRule

/-- `{"mark": "value"}` -/
def inputMarkValue : List Char := wrapBraces ("\"mark\": \"value\"".toList)

/-- `{"mark": "value","type": "File"}` -/
def inputMarkFirst : List Char :=
  wrapBraces ("\"mark\": \"value\",\"type\": \"File\"".toList)

/-- `{"type": "File","mark": "value"}` -/
def inputMarkLast : List Char :=
  wrapBraces ("\"type\": \"File\",\"mark\": \"value\"".toList)

/-- `{"type": "File"}` -/
def outputTypeFile : List Char := wrapBraces ("\"type\": \"File\"".toList)

/-- `{"m":1,"m":2}` — syntactically valid JSON with a duplicated key. -/
def inputDupMark : List Char := wrapBraces ("\"m\":1,\"m\":2".toList)

/-- The buffer `, "m":1 ,"x":2` for the C4 counterexample: its only match
captures a leading comma at offset 0. -/
def inputCommaZero : List Char := ", \"m\":1 ,\"x\":2".toList

/-! ### The JSON-grammar fixtures for the value-span scanner claim -/

inductive StrBody : List Char → Prop where
  | nil : StrBody []
  | plain (c : Char) (h1 : c ≠ '"') (h2 : c ≠ '\\') {b : List Char}
      (hb : StrBody b) : StrBody (c :: b)
  | esc (c : Char) {b : List Char} (hb : StrBody b) : StrBody ('\\' :: c :: b)

inductive Interior : Char → List Char → Prop where
  | nil {e : Char} : Interior e []
  | chr {e : Char} (c : Char) (h1 : c ≠ '"') (h2 : c ≠ '{') (h3 : c ≠ '[')
      (h4 : c ≠ e) {b : List Char} (hb : Interior e b) : Interior e (c :: b)
  | str {e : Char} {s b : List Char} (hs : StrBody s) (hb : Interior e b) :
      Interior e ('"' :: s ++ '"' :: b)
  | obj {e : Char} {s b : List Char} (hi : Interior '}' s)
      (hb : Interior e b) : Interior e ('{' :: s ++ '}' :: b)
  | arr {e : Char} {s b : List Char} (hi : Interior ']' s)
      (hb : Interior e b) : Interior e ('[' :: s ++ ']' :: b)

inductive JValue : List Char → Prop where
  | str {b : List Char} (hb : StrBody b) : JValue ('"' :: b ++ ['"'])
  | obj {s : List Char} (hi : Interior '}' s) : JValue ('{' :: s ++ ['}'])
  | arr {s : List Char} (hi : Interior ']' s) : JValue ('[' :: s ++ [']'])
  | num (c : Char) (t : List Char) (hc : c = '-' ∨ ('0' ≤ c ∧ c ≤ '9'))
      (ht : ∀ x ∈ t, numEndAux.numChar x = true) : JValue (c :: t)
  | nullLit : JValue nullLiteral
  | trueLit : JValue trueLiteral
  | falseLit : JValue falseLiteral

def NumFollow (s rest : List Char) : Prop :=
  ∀ c t, s = c :: t → (c = '-' ∨ ('0' ≤ c ∧ c ≤ '9')) →
    ∃ d r, rest = d :: r ∧ numEndAux.numChar d = false

def c7ws : List Char := [' ', '\t']

/-- `{"a":[1,"x\"y",null]}` — an object holding an array with a number, a
string with an escaped quote, and a literal. -/
def c7s : List Char := '{' :: ("\"a\":[1,\"x\\\"y\",null]".toList) ++ ['}']

def c7rest : List Char := ", \"k\": 2".toList

end Jsonj

namespace Jsonj

/-! ## Helper lemmas -/

namespace Outcome

@[simp] theorem bind_ok (a : α) (f : α → Outcome ε β) :
    bind (ok a) f = f a := rfl

@[simp] theorem bind_err (e : ε) (f : α → Outcome ε β) :
    bind (err e) f = err e := rfl

@[simp] theorem bind_crashed (f : α → Outcome ε β) :
    bind (crashed : Outcome ε α) f = crashed := rfl

@[simp] theorem ok_bind (a : α) (f : α → Outcome ε β) :
    ((ok a : Outcome ε α) >>= f) = f a := rfl

@[simp] theorem err_bind (e : ε) (f : α → Outcome ε β) :
    ((err e : Outcome ε α) >>= f) = err e := rfl

@[simp] theorem crashed_bind (f : α → Outcome ε β) :
    ((crashed : Outcome ε α) >>= f) = crashed := rfl

@[simp] theorem pure_eq_ok (a : α) : (pure a : Outcome ε α) = ok a := rfl

end Outcome

theorem goSlice_eq_ok (data : List Char) (a b : Nat) (h1 : a ≤ b)
    (h2 : b ≤ data.length) :
    goSlice data a b = Outcome.ok ((data.drop a).take (b - a)) := by
  simp [goSlice, h1, h2]

theorem goSlice_zero (data : List Char) (b : Nat) (h2 : b ≤ data.length) :
    goSlice data 0 b = Outcome.ok (data.take b) := by
  simp [goSlice, h2]

theorem goSlice_tail (data : List Char) (a : Nat) (h1 : a ≤ data.length) :
    goSlice data a data.length = Outcome.ok (data.drop a) := by
  have h3 : (data.drop a).take (data.length - a) = data.drop a := by
    apply List.take_of_length_le
    simp
  simp [goSlice, h1, h3]

/-- Reassembling with no entries copies the buffer through. -/
theorem expandDataFragments_nil (data : List Char) (acc : List Char) :
    expandDataFragments data [] 0 acc = .ok (acc ++ data) := by
  simp [expandDataFragments, goSlice_zero data data.length (le_refl _),
    List.take_length]

end Jsonj

namespace Jsonj

/-! ## C8 — degenerate inputs -/

/-- C8: for input `{}`, input `[]`, an empty pass list, or a pass with
`repeats = 0`, `Process` returns the input unchanged and invokes no
generator callback (the second component counts generator invocations). -/
theorem c8_degenerate_inputs_identity :
    (∀ passes : List Pass,
      Process ['{', '}'] passes = Outcome.ok (['{', '}'], 0)) ∧
    (∀ passes : List Pass,
      Process ['[', ']'] passes = Outcome.ok (['[', ']'], 0)) ∧
    (∀ input : List Char, Process input [] = Outcome.ok (input, 0)) ∧
    (∀ (input : List Char) (rules : List Rule),
      Process input [⟨rules, 0⟩] = Outcome.ok (input, 0)) := by
  refine ⟨fun _ => rfl, fun _ => rfl, fun input => ?_, fun input rules => ?_⟩
  · unfold Process
    split
    · rfl
    · rfl
  · unfold Process
    split
    · rfl
    · rfl

/-! ## C5 — rule construction failures -/

/-- C5 (amended): `NewRule` fails exactly when the mode is unset, the mark
is empty, the output key equals the mark for a non-ReplaceValue mode, or —
for non-Delete modes only — the generator is nil or the key is empty for a
non-Replace mode.  In particular a Delete rule given an output key or a
generator does *not* fail (they are silently ignored), contrary to the
claim. -/
theorem c5_rule_construction_characterization :
    ∀ (mode : RuleMode) (mark key : String)
      (g : Option GenerateFragmentBatchFunc),
      NewRule mode mark key g = none ↔
        (mode = RuleMode.ModeUndefined ∨ mark = "" ∨
          (mode ≠ RuleMode.ModeReplaceValue ∧ mark = key) ∨
          (mode ≠ RuleMode.ModeDelete ∧
            (g = none ∨ (mode ≠ RuleMode.ModeReplace ∧ key = "")))) := by
  intro mode mark key g
  cases mode <;> cases g <;> simp [NewRule] <;> tauto

/-- C5 counterexample: constructing a Delete rule while supplying both an
output key and a generator succeeds, where the claim requires a setup-time
failure. -/
theorem c5_counterexample_delete_with_key_and_generator :
    (NewRule RuleMode.ModeDelete "m" "key" (some genMeta)).isSome = true := by
  decide

/-! ## C1 — syntactic validity of the output -/

/-- C1 (code bug): on the syntactically valid JSON input `{"m":1,"m":2}`
(duplicate keys are syntactically legal and explicitly outside the
library's semantic guarantees), a pipeline holding the single rule
`NewDeleteRule("m")` — whose generator only produces well-formed `{}`
fragments — makes `Process` panic instead of returning valid JSON: the
first deletion (no leading comma) consumes the forward comma, which is the
second match's captured leading comma, so reassembly evaluates the
reversed slice `data[7:6]`. -/
theorem c1_valid_input_panics :
    NewDeleteRule "m" = some delM ∧
    Process inputDupMark [⟨[delM], 1⟩] = Outcome.crashed := by
  exact ⟨rfl, by decide⟩

/-! ## C10 — reflection shape check in Insert mode -/

/-- C10: an Insert-mode fragment whose value (after one pointer
indirection) is not struct-shaped makes reassembly panic even when it
serializes to a well-formed JSON object, while Replace and ReplaceValue
write functions perform no shape check; end-to-end, the same map-shaped
fragment panics under Insert and succeeds under ReplaceValue. -/
theorem c10_insert_mode_shape_check :
    (∀ v : GoValue, v.reflectIndirect.kindIsStruct = false →
      writeForInsertMode v = Outcome.crashed) ∧
    (∀ v : GoValue, v.encodeJSON ≠ [] →
      writeForReplaceMode v ≠ Outcome.crashed ∧
      writeForReplaceValueMode v = Outcome.ok v.encodeJSON) ∧
    Process (wrapBraces ("\"m\":1".toList)) [⟨[insMapM], 1⟩] =
      Outcome.crashed ∧
    Process (wrapBraces ("\"m\":1".toList))
        [⟨[(NewReplaceValueRule "m" "key" genMapFragment).getD dummyRule], 1⟩] =
      Outcome.ok (wrapBraces ("\"key\":".toList ++ wrapBraces ("\"a\":1".toList)), 1) := by
  refine ⟨?_, ?_, by decide, by decide⟩
  · intro v h
    simp [writeForInsertMode, h]
  · intro v h
    refine ⟨?_, rfl⟩
    cases hE : v.encodeJSON with
    | nil => exact absurd hE h
    | cons c t =>
      simp only [writeForReplaceMode, hE]
      split_ifs <;> simp

/-- C10 witness: the map-shaped fragment `{"a":1}` panics the Insert write
and passes the ReplaceValue write unharmed. -/
theorem c10_insert_mode_shape_check_witness :
    writeForInsertMode (GoValue.nonStruct (wrapBraces ("\"a\":1".toList))) =
      Outcome.crashed ∧
    writeForReplaceValueMode (GoValue.nonStruct (wrapBraces ("\"a\":1".toList))) =
      Outcome.ok (wrapBraces ("\"a\":1".toList)) :=
  ⟨c10_insert_mode_shape_check.1 _ (by decide),
    (c10_insert_mode_shape_check.2.1 _ (by decide)).2⟩

end Jsonj

namespace Jsonj

/-! ## Splice lemmas for single-entry reassembly -/

theorem expandDataFragments_nil_at (data acc : List Char) (pos : Nat)
    (h : pos ≤ data.length) :
    expandDataFragments data [] pos acc = Outcome.ok (acc ++ data.drop pos) := by
  simp [expandDataFragments, goSlice_tail data pos h]

theorem writeForInsertMode_struct (v : GoValue)
    (hv : v.reflectIndirect.kindIsStruct = true) (henc : v.encodeJSON ≠ []) :
    writeForInsertMode v =
      Outcome.ok (if v.encodeJSON = ['{', '}'] then []
        else (',' :: v.encodeJSON.drop 1).dropLast) := by
  cases hE : v.encodeJSON with
  | nil => exact absurd hE henc
  | cons c t =>
    simp only [writeForInsertMode, hv, not_true_eq_false, if_false, hE]
    split_ifs <;> simp

theorem writeForReplaceMode_eq (v : GoValue) (henc : v.encodeJSON ≠ []) :
    writeForReplaceMode v =
      Outcome.ok (if v.encodeJSON = ['{', '}'] then ([], 0)
        else ((' ' :: v.encodeJSON.drop 1).dropLast, v.encodeJSON.length - 1)) := by
  cases hE : v.encodeJSON with
  | nil => exact absurd hE henc
  | cons c t =>
    simp only [writeForReplaceMode, hE]
    split_ifs <;> simp

theorem take_slice_drop_eq (data : List Char) (a b : Nat) (h1 : a ≤ b) :
    data.take a ++ ((data.drop a).take (b - a) ++ data.drop b) = data := by
  have h3 : (data.drop a).take (b - a) = (data.take b).drop a := by
    rw [List.drop_take]
  have h4 : data.take a = (data.take b).take a := by
    rw [List.take_take, Nat.min_eq_left h1]
  rw [h3, ← List.append_assoc, h4, List.take_append_drop, List.take_append_drop]

/-- Insert-mode splice for one match: the output key replaces the mark key,
the original value bytes follow unchanged, then the fragment's interior. -/
theorem expand_insert_splice (data : List Char) (r : Rule) (e : FragEntry)
    (v : GoValue) (hmode : r.mode = RuleMode.ModeInsert)
    (h1 : e.markPos ≤ data.length) (h2 : e.argsPos ≤ e.endPos)
    (h3 : e.endPos ≤ data.length)
    (hv : v.reflectIndirect.kindIsStruct = true) (henc : v.encodeJSON ≠ []) :
    expandDataFragments data [⟨r, e, v⟩] 0 [] =
      Outcome.ok (data.take e.markPos ++ r.preparedKey ++ [':'] ++
        (data.drop e.argsPos).take (e.endPos - e.argsPos) ++
        (if v.encodeJSON = ['{', '}'] then []
          else (',' :: v.encodeJSON.drop 1).dropLast) ++
        data.drop e.endPos) := by
  simp only [expandDataFragments, hmode]
  rw [goSlice_zero data e.markPos h1, goSlice_eq_ok data e.argsPos e.endPos h2 h3,
    writeForInsertMode_struct v hv henc]
  simp only [Outcome.ok_bind]
  rw [goSlice_tail data e.endPos h3]
  simp [List.append_assoc]

/-- Replace-mode splice for one match whose fragment encodes to `{}`: the
whole buffer is reproduced byte-for-byte. -/
theorem expand_replace_empty (data : List Char) (r : Rule) (e : FragEntry)
    (v : GoValue) (hmode : r.mode = RuleMode.ModeReplace)
    (h1 : e.markPos ≤ e.endPos) (h3 : e.endPos ≤ data.length)
    (henc : v.encodeJSON = ['{', '}']) :
    expandDataFragments data [⟨r, e, v⟩] 0 [] = Outcome.ok data := by
  have hwr : writeForReplaceMode v = Outcome.ok ([], 0) := by
    simp [writeForReplaceMode, henc]
  simp only [expandDataFragments, hmode]
  rw [goSlice_zero data e.markPos (le_trans h1 h3), hwr,
    goSlice_eq_ok data e.markPos e.endPos h1 h3]
  simp only [Outcome.ok_bind]
  rw [goSlice_tail data e.endPos h3]
  simp [List.append_assoc, take_slice_drop_eq data e.markPos e.endPos h1]

/-- Delete-mode splice when the match captured a leading comma at a
positive offset: everything from that comma through the value is removed. -/
theorem expand_delete_leading_comma (data : List Char) (r : Rule)
    (e : FragEntry) (v : GoValue) (cp : Nat)
    (hmode : r.mode = RuleMode.ModeDelete) (hc : e.commaPos = some cp)
    (hcp : 0 < cp) (h1 : cp ≤ data.length) (h3 : e.endPos ≤ data.length) :
    expandDataFragments data [⟨r, e, v⟩] 0 [] =
      Outcome.ok (data.take cp ++ data.drop e.endPos) := by
  simp only [expandDataFragments, hmode, hc, hcp, if_true]
  rw [goSlice_zero data cp h1]
  simp only [Outcome.ok_bind]
  rw [goSlice_tail data e.endPos h3]
  simp

/-- Delete-mode splice when no leading comma was captured and a comma
(after optional whitespace) follows the value: the pair and the forward
comma (with the whitespace before it) are removed. -/
theorem expand_delete_no_comma_found (data : List Char) (r : Rule)
    (e : FragEntry) (v : GoValue) (k : Nat)
    (hmode : r.mode = RuleMode.ModeDelete) (hc : e.commaPos = none)
    (h1 : e.markPos ≤ data.length)
    (hf : findCommaPos (data.drop e.endPos) = some (some k))
    (h4 : e.endPos + k + 1 ≤ data.length) :
    expandDataFragments data [⟨r, e, v⟩] 0 [] =
      Outcome.ok (data.take e.markPos ++ data.drop (e.endPos + k + 1)) := by
  simp only [expandDataFragments, hmode, hc, hf]
  rw [goSlice_zero data e.markPos h1]
  simp only [Outcome.ok_bind]
  rw [goSlice_tail data (e.endPos + k + 1) h4]
  simp

/-- Delete-mode splice when no leading comma was captured and no comma
follows the value: exactly the pair is removed. -/
theorem expand_delete_no_comma_absent (data : List Char) (r : Rule)
    (e : FragEntry) (v : GoValue)
    (hmode : r.mode = RuleMode.ModeDelete) (hc : e.commaPos = none)
    (h1 : e.markPos ≤ data.length) (h3 : e.endPos ≤ data.length)
    (hf : findCommaPos (data.drop e.endPos) = some none) :
    expandDataFragments data [⟨r, e, v⟩] 0 [] =
      Outcome.ok (data.take e.markPos ++ data.drop e.endPos) := by
  simp only [expandDataFragments, hmode, hc, hf]
  rw [goSlice_zero data e.markPos h1]
  simp only [Outcome.ok_bind]
  rw [goSlice_tail data e.endPos h3]
  simp

end Jsonj

namespace Jsonj

/-! ## C2 — Insert-mode splice -/

/-- C2 (amended): for an Insert-mode match the pass engine does *not*
retain the original key: it writes the quoted output key with a colon in
place of the mark key, then the original value bytes unchanged, then the
substitute's serialization with its opening brace replaced by a single
comma and its closing brace dropped (nothing when the substitute encodes
to `{}`); end-to-end, the package-test input is rewritten accordingly. -/
theorem c2_insert_writes_output_key :
    (∀ (data : List Char) (r : Rule) (e : FragEntry) (v : GoValue),
      r.mode = RuleMode.ModeInsert → e.markPos ≤ data.length →
      e.argsPos ≤ e.endPos → e.endPos ≤ data.length →
      v.reflectIndirect.kindIsStruct = true → v.encodeJSON ≠ [] →
      expandDataFragments data [⟨r, e, v⟩] 0 [] =
        Outcome.ok (data.take e.markPos ++ r.preparedKey ++ [':'] ++
          (data.drop e.argsPos).take (e.endPos - e.argsPos) ++
          (if v.encodeJSON = ['{', '}'] then []
            else (',' :: v.encodeJSON.drop 1).dropLast) ++
          data.drop e.endPos)) ∧
    Process inputMarkValue [⟨[insMeta], 1⟩] =
      Outcome.ok (wrapBraces ("\"key\": \"value\",\"meta\":".toList ++
        wrapBraces ("\"length\":5".toList)), 1) :=
  ⟨fun data r e v hmode h1 h2 h3 hv henc =>
    expand_insert_splice data r e v hmode h1 h2 h3 hv henc, by decide⟩

/-- C2 counterexample: on `{"mark": "value"}` with the Insert rule
(mark `mark`, output key `key`, meta generator) the output is
`{"key": "value","meta":{"length":5}}`, in which the original pair is not
retained: the mark key no longer occurs at all. -/
theorem c2_counterexample_pair_not_retained :
    Process inputMarkValue [⟨[insMeta], 1⟩] =
      Outcome.ok (wrapBraces ("\"key\": \"value\",\"meta\":".toList ++
        wrapBraces ("\"length\":5".toList)), 1) ∧
    ¬ List.IsInfix ("\"mark\"".toList)
      (wrapBraces ("\"key\": \"value\",\"meta\":".toList ++
        wrapBraces ("\"length\":5".toList))) := by
  exact ⟨by decide, by decide⟩

/-- C2 witness: the splice statement instantiated at the package-test
match (`{"mark": "value"}`, match at offsets 1/8/16, meta fragment). -/
theorem c2_insert_writes_output_key_witness :
    insMeta.mode = RuleMode.ModeInsert ∧
    expandDataFragments inputMarkValue
        [⟨insMeta, ⟨"mark", none, 1, 8, 16⟩, GoValue.strukt metaFragment⟩] 0 [] =
      Outcome.ok (inputMarkValue.take 1 ++ insMeta.preparedKey ++ [':'] ++
        (inputMarkValue.drop 8).take 8 ++
        (if (GoValue.strukt metaFragment).encodeJSON = ['{', '}'] then []
          else (',' :: (GoValue.strukt metaFragment).encodeJSON.drop 1).dropLast) ++
        inputMarkValue.drop 16) :=
  ⟨by decide,
    c2_insert_writes_output_key.1 inputMarkValue insMeta ⟨"mark", none, 1, 8, 16⟩
      (GoValue.strukt metaFragment) (by decide) (by decide) (by decide) (by decide)
      (by decide) (by decide)⟩

/-! ## C3 — empty-fragment suppression -/

/-- C3 (amended): a Replace-mode match whose substitute encodes to `{}`
reproduces the buffer byte-for-byte; an Insert-mode match whose substitute
encodes to `{}` appends nothing, but still rewrites the pair itself,
replacing the mark key by the output key while keeping the value bytes;
end-to-end, Replace-empty returns the input unchanged while Insert-empty
renames the mark. -/
theorem c3_empty_fragment_suppression :
    (∀ (data : List Char) (r : Rule) (e : FragEntry) (v : GoValue),
      r.mode = RuleMode.ModeReplace → e.markPos ≤ e.endPos →
      e.endPos ≤ data.length → v.encodeJSON = ['{', '}'] →
      expandDataFragments data [⟨r, e, v⟩] 0 [] = Outcome.ok data) ∧
    (∀ (data : List Char) (r : Rule) (e : FragEntry) (v : GoValue),
      r.mode = RuleMode.ModeInsert → e.markPos ≤ data.length →
      e.argsPos ≤ e.endPos → e.endPos ≤ data.length →
      v.reflectIndirect.kindIsStruct = true → v.encodeJSON = ['{', '}'] →
      expandDataFragments data [⟨r, e, v⟩] 0 [] =
        Outcome.ok (data.take e.markPos ++ r.preparedKey ++ [':'] ++
          (data.drop e.argsPos).take (e.endPos - e.argsPos) ++
          data.drop e.endPos)) ∧
    Process inputMarkValue [⟨[repEmpty], 1⟩] = Outcome.ok (inputMarkValue, 1) ∧
    Process inputMarkValue [⟨[insEmpty], 1⟩] =
      Outcome.ok (wrapBraces ("\"key\": \"value\"".toList), 1) := by
  refine ⟨fun data r e v hmode h1 h3 henc =>
      expand_replace_empty data r e v hmode h1 h3 henc,
    fun data r e v hmode h1 h2 h3 hv henc => ?_, by decide, by decide⟩
  have h := expand_insert_splice data r e v hmode h1 h2 h3 hv
    (by rw [henc]; exact fun hcon => List.noConfusion hcon)
  rw [h, henc]
  simp

/-- C3 counterexample: Insert with the empty-fragment generator on
`{"mark": "value"}` yields `{"key": "value"}`: nothing was appended, but
the original mark/value pair was not left byte-for-byte unchanged — the
mark key was renamed. -/
theorem c3_counterexample_insert_empty_renames :
    Process inputMarkValue [⟨[insEmpty], 1⟩] =
      Outcome.ok (wrapBraces ("\"key\": \"value\"".toList), 1) ∧
    wrapBraces ("\"key\": \"value\"".toList) ≠ inputMarkValue := by
  exact ⟨by decide, by decide⟩

/-- C3 witness: the Replace-empty statement at the package-test match. -/
theorem c3_empty_fragment_suppression_witness :
    repEmpty.mode = RuleMode.ModeReplace ∧
    expandDataFragments inputMarkValue
        [⟨repEmpty, ⟨"mark", none, 1, 8, 16⟩, GoValue.strukt ['{', '}']⟩] 0 [] =
      Outcome.ok inputMarkValue :=
  ⟨by decide,
    c3_empty_fragment_suppression.1 inputMarkValue repEmpty ⟨"mark", none, 1, 8, 16⟩
      (GoValue.strukt ['{', '}']) (by decide) (by decide) (by decide) (by decide)⟩

end Jsonj

namespace Jsonj

/-! ## C4 — Delete-mode splice -/

/-- C4 (amended): a Delete-mode match is removed together with its captured
leading comma whenever that comma sits at a positive offset; when no
leading comma was captured, a comma following the value (with the
whitespace before it) is consumed instead if present, and nothing else is
consumed when absent; the three spec examples hold end-to-end.  (A captured
leading comma at offset 0 — a buffer beginning with the comma, impossible
in valid JSON — is instead retained, the forward comma being consumed.) -/
theorem c4_delete_splice :
    (∀ (data : List Char) (r : Rule) (e : FragEntry) (v : GoValue) (cp : Nat),
      r.mode = RuleMode.ModeDelete → e.commaPos = some cp → 0 < cp →
      cp ≤ data.length → e.endPos ≤ data.length →
      expandDataFragments data [⟨r, e, v⟩] 0 [] =
        Outcome.ok (data.take cp ++ data.drop e.endPos)) ∧
    (∀ (data : List Char) (r : Rule) (e : FragEntry) (v : GoValue) (k : Nat),
      r.mode = RuleMode.ModeDelete → e.commaPos = none →
      e.markPos ≤ data.length →
      findCommaPos (data.drop e.endPos) = some (some k) →
      e.endPos + k + 1 ≤ data.length →
      expandDataFragments data [⟨r, e, v⟩] 0 [] =
        Outcome.ok (data.take e.markPos ++ data.drop (e.endPos + k + 1))) ∧
    (∀ (data : List Char) (r : Rule) (e : FragEntry) (v : GoValue),
      r.mode = RuleMode.ModeDelete → e.commaPos = none →
      e.markPos ≤ data.length → e.endPos ≤ data.length →
      findCommaPos (data.drop e.endPos) = some none →
      expandDataFragments data [⟨r, e, v⟩] 0 [] =
        Outcome.ok (data.take e.markPos ++ data.drop e.endPos)) ∧
    Process inputMarkValue [⟨[delMark], 1⟩] = Outcome.ok (['{', '}'], 1) ∧
    Process inputMarkFirst [⟨[delMark], 1⟩] = Outcome.ok (outputTypeFile, 1) ∧
    Process inputMarkLast [⟨[delMark], 1⟩] = Outcome.ok (outputTypeFile, 1) :=
  ⟨fun data r e v cp hmode hc hcp h1 h3 =>
      expand_delete_leading_comma data r e v cp hmode hc hcp h1 h3,
    fun data r e v k hmode hc h1 hf h4 =>
      expand_delete_no_comma_found data r e v k hmode hc h1 hf h4,
    fun data r e v hmode hc h1 h3 hf =>
      expand_delete_no_comma_absent data r e v hmode hc h1 h3 hf,
    by decide, by decide, by decide⟩

/-- C4 counterexample: on the buffer `, "m":1 ,"x":2` the only match
carries a leading comma at offset 0; the claim demands that this comma be
removed with the pair, producing ` ,"x":2`, but the code's `commaPos > 0`
test routes the match through the no-leading-comma branch, retaining the
comma and consuming the forward one: the output is `, "x":2`. -/
theorem c4_counterexample_leading_comma_at_zero :
    Process inputCommaZero [⟨[delM], 1⟩] =
      Outcome.ok (", \"x\":2".toList, 1) ∧
    (", \"x\":2".toList : List Char) ≠
      inputCommaZero.take 0 ++ inputCommaZero.drop 7 := by
  exact ⟨by decide, by decide⟩

/-- C4 witness: the leading-comma statement at the match of
`{"type": "File","mark": "value"}` (comma captured at offset 15). -/
theorem c4_delete_splice_witness :
    delMark.mode = RuleMode.ModeDelete ∧
    expandDataFragments inputMarkLast
        [⟨delMark, ⟨"mark", some 15, 16, 23, 31⟩, GoValue.strukt ['{', '}']⟩] 0 [] =
      Outcome.ok (inputMarkLast.take 15 ++ inputMarkLast.drop 31) :=
  ⟨by decide,
    c4_delete_splice.1 inputMarkLast delMark ⟨"mark", some 15, 16, 23, 31⟩
      (GoValue.strukt ['{', '}']) 15 (by decide) (by decide) (by decide)
      (by decide) (by decide)⟩

end Jsonj

namespace Jsonj

/-! ## C6 — generator errors abort the pass -/

theorem goSlice_ne_err (data : List Char) (a b : Nat) (er : PErr) :
    goSlice data a b ≠ Outcome.err er := by
  unfold goSlice
  split <;> simp

theorem writeForInsertMode_ne_err (v : GoValue) (er : PErr) :
    writeForInsertMode v ≠ Outcome.err er := by
  unfold writeForInsertMode
  split_ifs <;> try simp
  split <;> simp

theorem writeForReplaceMode_ne_err (v : GoValue) (er : PErr) :
    writeForReplaceMode v ≠ Outcome.err er := by
  unfold writeForReplaceMode
  split_ifs <;> try simp
  split <;> simp

/-- Reassembly produces output or a panic, never a returned error (the
fragment-encoding failure path is not modelled; see `GoValue`). -/
theorem expandDataFragments_ne_err (data : List Char) :
    ∀ (fs : List ResolvedFrag) (pos : Nat) (acc : List Char) (er : PErr),
      expandDataFragments data fs pos acc ≠ Outcome.err er := by
  intro fs
  induction fs with
  | nil =>
    intro pos acc er
    simp only [expandDataFragments]
    cases hpre : goSlice data pos data.length with
    | ok a => simp [hpre]
    | err e => exact absurd hpre (goSlice_ne_err data pos data.length e)
    | crashed => simp [hpre]
  | cons f rest ih =>
    intro pos acc er
    simp only [expandDataFragments]
    cases hm : f.rule.mode with
    | ModeUndefined => exact ih pos acc er
    | ModeReplaceValue =>
      cases hpre : goSlice data pos f.entry.markPos with
      | ok a => simp [hpre, writeForReplaceValueMode]; exact ih _ _ er
      | err e => exact absurd hpre (goSlice_ne_err data pos f.entry.markPos e)
      | crashed => simp [hpre]
    | ModeReplace =>
      cases hpre : goSlice data pos f.entry.markPos with
      | err e => exact absurd hpre (goSlice_ne_err data pos f.entry.markPos e)
      | crashed => simp [hpre]
      | ok a =>
        cases hw : writeForReplaceMode f.fragment with
        | err e => exact absurd hw (writeForReplaceMode_ne_err f.fragment e)
        | crashed => simp [hpre, hw]
        | ok wc =>
          simp only [hpre, hw, Outcome.ok_bind]
          split
          · cases horig : goSlice data f.entry.markPos f.entry.endPos with
            | ok b => simp [horig]; exact ih _ _ er
            | err e =>
              exact absurd horig
                (goSlice_ne_err data f.entry.markPos f.entry.endPos e)
            | crashed => simp [horig]
          · exact ih _ _ er
    | ModeInsert =>
      cases hpre : goSlice data pos f.entry.markPos with
      | err e => exact absurd hpre (goSlice_ne_err data pos f.entry.markPos e)
      | crashed => simp [hpre]
      | ok a =>
        cases hv : goSlice data f.entry.argsPos f.entry.endPos with
        | err e =>
          exact absurd hv (goSlice_ne_err data f.entry.argsPos f.entry.endPos e)
        | crashed => simp [hpre, hv]
        | ok b =>
          cases hw : writeForInsertMode f.fragment with
          | err e => exact absurd hw (writeForInsertMode_ne_err f.fragment e)
          | crashed => simp [hpre, hv, hw]
          | ok w => simp [hpre, hv, hw]; exact ih _ _ er
    | ModeDelete =>
      cases hc : f.entry.commaPos with
      | some cp =>
        by_cases hcp : 0 < cp
        · simp only [hcp, if_true]
          cases hpre : goSlice data pos cp with
          | ok a => simp [hpre]; exact ih _ _ er
          | err e => exact absurd hpre (goSlice_ne_err data pos cp e)
          | crashed => simp [hpre]
        · simp only [hcp, if_false]
          cases hpre : goSlice data pos f.entry.markPos with
          | err e => exact absurd hpre (goSlice_ne_err data pos f.entry.markPos e)
          | crashed => simp [hpre]
          | ok a =>
            simp only [hpre, Outcome.ok_bind]
            split
            · simp
            · exact ih _ _ er
            · exact ih _ _ er
      | none =>
        cases hpre : goSlice data pos f.entry.markPos with
        | err e => exact absurd hpre (goSlice_ne_err data pos f.entry.markPos e)
        | crashed => simp [hpre]
        | ok a =>
          simp only [hpre, Outcome.ok_bind]
          split
          · simp
          · exact ih _ _ er
          · exact ih _ _ er

end Jsonj

namespace Jsonj

/-- A returned error of the generation stage always wraps a generator
failure with the failing rule's identity. -/
theorem genForRules_err_shape (data : List Char) (entries : List FragEntry) :
    ∀ (rules : List Rule) (e : PErr),
      genForRules data entries rules = Outcome.err e →
      ∃ mode mark msg, e = PErr.genErr mode mark msg := by
  intro rules
  induction rules with
  | nil =>
    intro e h
    simp [genForRules] at h
  | cons r rs ih =>
    intro e h
    simp only [genForRules] at h
    split at h
    · exact ih e h
    · split at h
      · rename_i msg heq
        exact ⟨r.mode, r.mark, msg, (Outcome.err.injEq _ _).mp h |>.symm⟩
      · rename_i result heq
        split at h
        · simp at h
        · cases hg : genForRules data entries rs with
          | ok tn => rw [hg] at h; simp at h
          | err e2 =>
            rw [hg] at h
            simp only [Outcome.err_bind, Outcome.err.injEq] at h
            exact h ▸ ih e2 hg
          | crashed => rw [hg] at h; simp at h

/-- A returned error of one pass is always a rule-identified generator
error. -/
theorem doPassBatch_err_shape (data : List Char) (rules : List Rule)
    (e : PErr) (h : doPassBatch data rules = Outcome.err e) :
    ∃ mode mark msg, e = PErr.genErr mode mark msg := by
  unfold doPassBatch at h
  split at h
  · simp at h
  · split at h
    · simp at h
    · split at h
      · rename_i e2 heq
        rw [Outcome.err.injEq] at h
        subst h
        exact genForRules_err_shape data _ rules e2 heq
      · simp at h
      · rename_i tbl n heq
        split at h
        · simp at h
        · split at h
          · simp at h
          · rename_i resolved hres
            cases hx : expandDataFragments data resolved 0 [] with
            | ok out => rw [hx] at h; simp at h
            | err e2 => exact absurd hx (expandDataFragments_ne_err data resolved 0 [] e2)
            | crashed => rw [hx] at h; simp at h

/-- An erroring pass iteration wraps the error with its iteration index. -/
theorem runRepeats_first_err (rules : List Rule) (n i : Nat)
    (data : List Char) (calls : Nat) (e : PErr)
    (h : doPassBatch data rules = Outcome.err e) :
    runRepeats rules (n + 1) i data calls = Outcome.err (PErr.passErr i e) := by
  simp [runRepeats, h]

/-- C6: a returned error of a pass is always a generator error naming the
failing rule; an erroring repeat iteration wraps it with the iteration
index; and a single-pass `Process` whose first iteration errors returns
exactly the wrapped error — and, being an `Outcome.err`, no output
buffer. -/
theorem c6_generator_error_aborts :
    (∀ (data : List Char) (rules : List Rule) (e : PErr),
      doPassBatch data rules = Outcome.err e →
      ∃ mode mark msg, e = PErr.genErr mode mark msg) ∧
    (∀ (rules : List Rule) (n i : Nat) (data : List Char) (calls : Nat) (e : PErr),
      doPassBatch data rules = Outcome.err e →
      runRepeats rules (n + 1) i data calls = Outcome.err (PErr.passErr i e)) ∧
    (∀ (input : List Char) (rules : List Rule) (reps : Nat) (e : PErr),
      2 < input.length → doPassBatch input rules = Outcome.err e →
      Process input [⟨rules, reps + 1⟩] = Outcome.err (PErr.passErr 0 e)) := by
  refine ⟨doPassBatch_err_shape,
    runRepeats_first_err,
    fun input rules reps e hlen h => ?_⟩
  unfold Process
  rw [if_neg (by omega), if_neg (by simp)]
  simp [runPasses, runRepeats_first_err rules reps 0 input 0 e h]

/-- C6 witness: a failing Insert generator on `{"m":1}` yields the wrapped
error naming the rule and iteration 0, with no output. -/
theorem c6_generator_error_aborts_witness :
    2 < (wrapBraces ("\"m\":1".toList)).length ∧
    doPassBatch (wrapBraces ("\"m\":1".toList)) [insFailM] =
      Outcome.err (PErr.genErr RuleMode.ModeInsert "m" "lookup failed") ∧
    Process (wrapBraces ("\"m\":1".toList)) [⟨[insFailM], 1⟩] =
      Outcome.err (PErr.passErr 0
        (PErr.genErr RuleMode.ModeInsert "m" "lookup failed")) :=
  ⟨by decide, by decide,
    c6_generator_error_aborts.2.2 (wrapBraces ("\"m\":1".toList)) [insFailM] 0
      (PErr.genErr RuleMode.ModeInsert "m" "lookup failed") (by decide) (by decide)⟩

end Jsonj

namespace Jsonj

/-! ## C9 — idempotence of Delete -/

/-- A pass whose matcher finds nothing emits its input unchanged, calling
no generator. -/
theorem doPassBatch_no_match (data : List Char) (rules : List Rule)
    (h : findMatch data (rules.map (fun r => r.mark)) 0 = none) :
    doPassBatch data rules = Outcome.ok (data, 0) := by
  unfold doPassBatch scanEntries
  simp [iterateMarksAux, h]

theorem process_no_match_identity (out : List Char) (r : Rule)
    (h : findMatch out [r.mark] 0 = none) :
    Process out [⟨[r], 1⟩] = Outcome.ok (out, 0) := by
  unfold Process
  split
  · rfl
  · rw [if_neg (by simp)]
    have hd : doPassBatch out [r] = Outcome.ok (out, 0) :=
      doPassBatch_no_match out [r] (by simpa using h)
    simp [runPasses, runRepeats, hd]

/-- C9 (amended): applying a single-rule Delete pass a second time is the
identity whenever the mark no longer matches in the first application's
output (as with well-formed object inputs such as the spec's examples);
on arbitrary byte buffers the first output can still contain a match, and
the second application then differs (see the counterexample). -/
theorem c9_delete_idempotent_when_no_match_remains :
    ∀ (r : Rule) (buf out : List Char) (n : Nat),
      r.mode = RuleMode.ModeDelete →
      Process buf [⟨[r], 1⟩] = Outcome.ok (out, n) →
      findMatch out [r.mark] 0 = none →
      Process out [⟨[r], 1⟩] = Outcome.ok (out, 0) :=
  fun r _ out _ _ _ h2 => process_no_match_identity out r h2

/-- C9 counterexample: deleting `m` from the buffer `{"m", "m":1:2}` once
yields `{"m":2}`, which still matches, so a second application yields `{}`
≠ `{"m":2}`: one application is not equivalent to two. -/
theorem c9_counterexample_delete_not_idempotent :
    Process (wrapBraces ("\"m\", \"m\":1:2".toList)) [⟨[delM], 1⟩] =
      Outcome.ok (wrapBraces ("\"m\":2".toList), 1) ∧
    Process (wrapBraces ("\"m\":2".toList)) [⟨[delM], 1⟩] =
      Outcome.ok (['{', '}'], 1) ∧
    wrapBraces ("\"m\":2".toList) ≠ ['{', '}'] := by
  exact ⟨by decide, by decide, by decide⟩

/-- C9 witness: the spec example `{"mark":"value","type":"File"}` deletes
to `{"type": "File"}`, which has no further match, so the second
application is the identity. -/
theorem c9_delete_idempotent_witness :
    delMark.mode = RuleMode.ModeDelete ∧
    Process inputMarkFirst [⟨[delMark], 1⟩] = Outcome.ok (outputTypeFile, 1) ∧
    findMatch outputTypeFile ["mark"] 0 = none ∧
    Process outputTypeFile [⟨[delMark], 1⟩] = Outcome.ok (outputTypeFile, 0) :=
  ⟨by decide, by decide, by decide,
    c9_delete_idempotent_when_no_match_remains delMark inputMarkFirst outputTypeFile 1
      (by decide) (by decide) (by decide)⟩

end Jsonj


namespace Jsonj

/-! ## C7 — the value-span scanner at JSON-grammar boundaries -/

theorem drop_cons_append (a b : Char) (l z : List Char) :
    (a :: l ++ b :: z).drop (l.length + 2) = z := by
  have h : a :: l ++ b :: z = (a :: l ++ [b]) ++ z := by simp
  have h2 : (a :: l ++ [b]).length = l.length + 2 := by simp
  rw [h, ← h2, List.drop_left]

theorem strEndAux_body {b : List Char} (hb : StrBody b) :
    ∀ (rest : List Char) (i : Nat),
      strEndAux (b ++ '"' :: rest) i = some (i + b.length) := by
  induction hb with
  | nil =>
    intro rest i
    rw [List.nil_append, strEndAux.eq_def]
    simp
  | plain c h1 h2 _ ih =>
    intro rest i
    rw [List.cons_append, strEndAux.eq_def]
    simp only [h1, h2, if_false, ih rest (i + 1), List.length_cons]
    rw [Option.some.injEq]
    omega
  | esc c _ ih =>
    intro rest i
    rw [List.cons_append, List.cons_append, strEndAux.eq_def]
    simp only [ih rest (i + 2), List.length_cons]
    rw [if_neg (by decide), if_pos trivial, Option.some.injEq]
    omega

theorem findJSONStringEnd_body {b : List Char} (hb : StrBody b)
    (rest : List Char) :
    findJSONStringEnd ('"' :: (b ++ '"' :: rest)) = some (b.length + 1) := by
  show strEndAux (b ++ '"' :: rest) 1 = some (b.length + 1)
  rw [strEndAux_body hb rest 1, Option.some.injEq]
  omega

theorem numEndAux_maximal :
    ∀ (t : List Char) {d : Char} (r : List Char) (i : Nat),
      (∀ x ∈ t, numEndAux.numChar x = true) → numEndAux.numChar d = false →
      numEndAux (t ++ d :: r) i = some (i + t.length) := by
  intro t
  induction t with
  | nil =>
    intro d r i _ hd
    rw [List.nil_append, numEndAux.eq_def]
    simp [hd]
  | cons c t2 ih =>
    intro d r i ht hd
    have hc : numEndAux.numChar c = true := ht c (List.mem_cons_self c t2)
    rw [List.cons_append, numEndAux.eq_def]
    simp only [hc, if_true, ih r (i + 1) (fun x hx => ht x (List.mem_cons_of_mem c hx)) hd,
      List.length_cons]
    rw [Option.some.injEq]
    omega

end Jsonj

namespace Jsonj

theorem valEndLoop_interior :
    ∀ {e : Char} {s : List Char}, Interior e s → (e = '}' ∨ e = ']') →
    ∀ (rest : List Char) (c fuel : Nat), s.length + 1 ≤ fuel →
      valEndLoop fuel e (s ++ e :: rest) c = some (c + s.length) := by
  intro e s hs
  induction hs with
  | nil =>
    rename_i e2
    intro he rest c fuel hf
    have h1 : e2 ≠ '"' := by rcases he with rfl | rfl <;> decide
    have h2 : ¬ (e2 = '{' ∨ e2 = '[') := by rcases he with rfl | rfl <;> decide
    cases fuel with
    | zero => simp at hf
    | succ f =>
      rw [List.nil_append, valEndLoop.eq_def]
      simp only [h1, h2, if_false]
      simp
  | chr c0 h1 h2 h3 h4 hb ih =>
    rename_i e2 b
    intro he rest c fuel hf
    cases fuel with
    | zero => simp at hf
    | succ f =>
      rw [List.cons_append, valEndLoop.eq_def]
      have h23 : ¬ (c0 = '{' ∨ c0 = '[') := by
        rintro (hx | hx)
        · exact h2 hx
        · exact h3 hx
      simp only [h1, h23, h4, if_false]
      rw [ih he rest (c + 1) f (by simp only [List.length_cons] at hf ⊢; omega),
        Option.some.injEq]
      simp only [List.length_cons]
      omega
  | str hs0 hb0 ih =>
    rename_i e2 sb b
    intro he rest c fuel hf
    cases fuel with
    | zero => simp at hf
    | succ f =>
      have hshape : ('"' :: sb ++ '"' :: b) ++ e2 :: rest =
          '"' :: (sb ++ '"' :: (b ++ e2 :: rest)) := by simp
      rw [hshape, valEndLoop.eq_def]
      simp only [eq_self_iff_true, if_true]
      rw [findJSONStringEnd_body hs0 (b ++ e2 :: rest)]
      have hdrop : ('"' :: (sb ++ '"' :: (b ++ e2 :: rest))).drop (sb.length + 1 + 1) =
          b ++ e2 :: rest := by
        have h := drop_cons_append '"' '"' sb (b ++ e2 :: rest)
        simpa using h
      simp only [hdrop]
      rw [ih he rest (c + (sb.length + 1) + 1) f
        (by simp only [List.length_cons, List.length_append] at hf ⊢; omega),
        Option.some.injEq]
      simp only [List.length_append, List.length_cons]
      omega
  | obj hi hb0 ih_i ih =>
    rename_i e2 si b
    intro he rest c fuel hf
    cases fuel with
    | zero => simp at hf
    | succ f =>
      have hshape : ('{' :: si ++ '}' :: b) ++ e2 :: rest =
          '{' :: (si ++ '}' :: (b ++ e2 :: rest)) := by simp
      have h1 : ¬ (('{' : Char) = '"') := by decide
      rw [hshape, valEndLoop.eq_def]
      simp only [h1, if_false, eq_self_iff_true, true_or, if_true]
      have hlen : si.length + 2 ≤ f := by
        simp only [List.length_cons, List.length_append] at hf; omega
      have hval : findJSONValueEnd f ('{' :: (si ++ '}' :: (b ++ e2 :: rest))) =
          some (si.length + 1) := by
        cases f with
        | zero => omega
        | succ f2 =>
          rw [findJSONValueEnd.eq_def]
          simp only [List.head?, List.drop_succ_cons, List.drop_zero]
          rw [ih_i (Or.inl rfl) (b ++ e2 :: rest) 1 f2 (by omega), Option.some.injEq]
          omega
      rw [hval]
      have hdrop : ('{' :: (si ++ '}' :: (b ++ e2 :: rest))).drop (si.length + 1 + 1) =
          b ++ e2 :: rest := by
        have h := drop_cons_append '{' '}' si (b ++ e2 :: rest)
        simpa using h
      simp only [hdrop]
      rw [ih he rest (c + (si.length + 1) + 1) f
        (by simp only [List.length_cons, List.length_append] at hf ⊢; omega),
        Option.some.injEq]
      simp only [List.length_append, List.length_cons]
      omega
  | arr hi hb0 ih_i ih =>
    rename_i e2 si b
    intro he rest c fuel hf
    cases fuel with
    | zero => simp at hf
    | succ f =>
      have hshape : ('[' :: si ++ ']' :: b) ++ e2 :: rest =
          '[' :: (si ++ ']' :: (b ++ e2 :: rest)) := by simp
      have h1 : ¬ (('[' : Char) = '"') := by decide
      rw [hshape, valEndLoop.eq_def]
      simp only [h1, if_false, eq_self_iff_true, or_true, if_true]
      have hlen : si.length + 2 ≤ f := by
        simp only [List.length_cons, List.length_append] at hf; omega
      have hval : findJSONValueEnd f ('[' :: (si ++ ']' :: (b ++ e2 :: rest))) =
          some (si.length + 1) := by
        cases f with
        | zero => omega
        | succ f2 =>
          rw [findJSONValueEnd.eq_def]
          simp only [List.head?, List.drop_succ_cons, List.drop_zero]
          rw [ih_i (Or.inr rfl) (b ++ e2 :: rest) 1 f2 (by omega), Option.some.injEq]
          omega
      rw [hval]
      have hdrop : ('[' :: (si ++ ']' :: (b ++ e2 :: rest))).drop (si.length + 1 + 1) =
          b ++ e2 :: rest := by
        have h := drop_cons_append '[' ']' si (b ++ e2 :: rest)
        simpa using h
      simp only [hdrop]
      rw [ih he rest (c + (si.length + 1) + 1) f
        (by simp only [List.length_cons, List.length_append] at hf ⊢; omega),
        Option.some.injEq]
      simp only [List.length_append, List.length_cons]
      omega

theorem findJSONValueEnd_braces {si : List Char} (hi : Interior '}' si)
    (z : List Char) (fuel : Nat) (hf : si.length + 2 ≤ fuel) :
    findJSONValueEnd fuel ('{' :: (si ++ '}' :: z)) = some (si.length + 1) := by
  cases fuel with
  | zero => omega
  | succ f =>
    rw [findJSONValueEnd.eq_def]
    simp only [List.head?, List.drop_succ_cons, List.drop_zero]
    rw [valEndLoop_interior hi (Or.inl rfl) z 1 f (by omega), Option.some.injEq]
    omega

theorem findJSONValueEnd_brackets {si : List Char} (hi : Interior ']' si)
    (z : List Char) (fuel : Nat) (hf : si.length + 2 ≤ fuel) :
    findJSONValueEnd fuel ('[' :: (si ++ ']' :: z)) = some (si.length + 1) := by
  cases fuel with
  | zero => omega
  | succ f =>
    rw [findJSONValueEnd.eq_def]
    simp only [List.head?, List.drop_succ_cons, List.drop_zero]
    rw [valEndLoop_interior hi (Or.inr rfl) z 1 f (by omega), Option.some.injEq]
    omega

theorem fragEndAux_ws (ws : List Char) (hws : ∀ c ∈ ws, asciiSpace c = true) :
    ∀ (z : List Char) (i : Nat),
      fragEndAux (ws ++ z) i = fragEndAux z (i + ws.length) := by
  induction ws with
  | nil =>
    intro z i
    simp
  | cons c w ih =>
    intro z i
    rw [List.cons_append]
    simp only [fragEndAux]
    rw [if_pos (hws c (List.mem_cons_self c w))]
    rw [ih (fun x hx => hws x (List.mem_cons_of_mem c hx)) z (i + 1)]
    congr 1
    simp only [List.length_cons]
    omega

theorem fragEndAux_jvalue (s rest : List Char) (hv : JValue s)
    (hnum : NumFollow s rest) :
    ∀ i, fragEndAux (s ++ rest) i = some (i + s.length) := by
  cases hv with
  | str hb =>
    rename_i b
    intro i
    have hshape : ('"' :: b ++ ['"']) ++ rest = '"' :: (b ++ '"' :: rest) := by simp
    rw [hshape]
    simp only [fragEndAux]
    rw [if_neg (by decide)]
    simp only [eq_self_iff_true, if_true]
    rw [findJSONStringEnd_body hb rest]
    simp only [Option.map_some']
    rw [Option.some.injEq]
    simp only [List.length_cons, List.length_append, List.length_nil]
    omega
  | obj hi =>
    rename_i si
    intro i
    have hshape : ('{' :: si ++ ['}']) ++ rest = '{' :: (si ++ '}' :: rest) := by simp
    rw [hshape]
    simp only [fragEndAux]
    rw [if_neg (by decide), if_neg (by decide)]
    simp only [eq_self_iff_true, or_true, if_true]
    rw [findJSONValueEnd_braces hi rest ((si ++ '}' :: rest).length + 2)
      (by simp only [List.length_append, List.length_cons]; omega)]
    simp only [Option.map_some']
    rw [Option.some.injEq]
    simp only [List.length_cons, List.length_append, List.length_nil]
    omega
  | arr hi =>
    rename_i si
    intro i
    have hshape : ('[' :: si ++ [']']) ++ rest = '[' :: (si ++ ']' :: rest) := by simp
    rw [hshape]
    simp only [fragEndAux]
    rw [if_neg (by decide), if_neg (by decide)]
    simp only [eq_self_iff_true, true_or, if_true]
    rw [findJSONValueEnd_brackets hi rest ((si ++ ']' :: rest).length + 2)
      (by simp only [List.length_append, List.length_cons]; omega)]
    simp only [Option.map_some']
    rw [Option.some.injEq]
    simp only [List.length_cons, List.length_append, List.length_nil]
    omega
  | num c t hc ht =>
    intro i
    obtain ⟨d, r, hrest, hd⟩ := hnum c t rfl hc
    subst hrest
    have hns : ¬ (asciiSpace c = true) := by
      rcases hc with rfl | ⟨h1, h2⟩
      · decide
      · simp only [asciiSpace, decide_eq_true_eq]
        rintro (rfl | rfl | rfl | rfl | rfl | rfl) <;> revert h1 <;> decide
    have hq : ¬ (c = '"') := by
      rcases hc with rfl | ⟨h1, h2⟩
      · decide
      · rintro rfl
        revert h1
        decide
    have hbr : ¬ (c = '[' ∨ c = '{') := by
      rcases hc with rfl | ⟨h1, h2⟩
      · decide
      · rintro (rfl | rfl) <;> revert h2 <;> decide
    rw [List.cons_append]
    simp only [fragEndAux]
    rw [if_neg hns, if_neg hq, if_neg hbr, if_pos hc]
    rw [show findJSONNumberEnd (c :: (t ++ d :: r)) = numEndAux (t ++ d :: r) 1 from rfl]
    rw [numEndAux_maximal t r 1 ht hd]
    simp only [Option.map_some']
    rw [Option.some.injEq]
    simp only [List.length_cons]
    omega
  | nullLit =>
    intro i
    rw [show nullLiteral ++ rest = 'n' :: ('u' :: 'l' :: 'l' :: rest) from rfl]
    simp only [fragEndAux]
    rw [if_neg (by decide), if_neg (by decide), if_neg (by decide),
      if_neg (by decide), if_pos ⟨trivial, rfl⟩]
    rfl
  | trueLit =>
    intro i
    rw [show trueLiteral ++ rest = 't' :: ('r' :: 'u' :: 'e' :: rest) from rfl]
    simp only [fragEndAux]
    rw [if_neg (by decide), if_neg (by decide), if_neg (by decide),
      if_neg (by decide), if_neg (fun h => absurd h.1 (by decide)),
      if_pos ⟨trivial, rfl⟩]
    rfl
  | falseLit =>
    intro i
    rw [show falseLiteral ++ rest = 'f' :: ('a' :: 'l' :: 's' :: 'e' :: rest) from rfl]
    simp only [fragEndAux]
    rw [if_neg (by decide), if_neg (by decide), if_neg (by decide),
      if_neg (by decide), if_neg (fun h => absurd h.1 (by decide)),
      if_neg (fun h => absurd h.1 (by decide)), if_pos ⟨trivial, rfl⟩]
    rfl

/-- C7: started at any position holding a serialized JSON value after
leading ASCII whitespace, the span scanner returns the offset exactly at
that value's grammar boundary for every class: strings (backslash consumes
the next byte, the span ends at the next unescaped quote, brackets inside
strings ignored), nested objects/arrays (the matching bracket at the same
depth), numbers including negatives and exponents (the maximal run of
`[+-0-9eE.]`, which is the grammar boundary whenever a non-number byte
follows, as `NumFollow` requires), and the fixed literals. -/
theorem c7_value_span_boundary (ws s rest : List Char)
    (hws : ∀ c ∈ ws, asciiSpace c = true)
    (hv : JValue s) (hnum : NumFollow s rest) :
    findJSONFragmentEnd (ws ++ s ++ rest) = some (ws.length + s.length) := by
  unfold findJSONFragmentEnd
  rw [List.append_assoc, fragEndAux_ws ws hws (s ++ rest) 0,
    fragEndAux_jvalue s rest hv hnum (0 + ws.length)]
  rw [Option.some.injEq]
  omega

/-- C7 witness: the scanner applied to whitespace, then
`{"a":[1,"x\"y",null]}` — covering a nested array, a number, a string with
an escaped quote, and a literal — then a trailing member. -/
theorem c7_value_span_boundary_witness :
    findJSONFragmentEnd (c7ws ++ c7s ++ c7rest) =
      some (c7ws.length + c7s.length) := by
  have hsb : StrBody ['x', '\\', '"', 'y'] :=
    .plain 'x' (by decide) (by decide)
      (.esc '"' (.plain 'y' (by decide) (by decide) .nil))
  have hinner : Interior ']'
      ('1' :: ',' :: ('"' :: ['x', '\\', '"', 'y'] ++ '"' :: (',' :: 'n' :: 'u' :: 'l' :: 'l' :: []))) :=
    .chr '1' (by decide) (by decide) (by decide) (by decide)
      (.chr ',' (by decide) (by decide) (by decide) (by decide)
        (.str hsb
          (.chr ',' (by decide) (by decide) (by decide) (by decide)
            (.chr 'n' (by decide) (by decide) (by decide) (by decide)
              (.chr 'u' (by decide) (by decide) (by decide) (by decide)
                (.chr 'l' (by decide) (by decide) (by decide) (by decide)
                  (.chr 'l' (by decide) (by decide) (by decide) (by decide) .nil)))))))
  have hsi : Interior '}'
      ('"' :: ['a'] ++ '"' :: (':' ::
        ('[' :: ('1' :: ',' :: ('"' :: ['x', '\\', '"', 'y'] ++ '"' :: (',' :: 'n' :: 'u' :: 'l' :: 'l' :: []))) ++ ']' :: []))) :=
    .str (.plain 'a' (by decide) (by decide) .nil)
      (.chr ':' (by decide) (by decide) (by decide) (by decide)
        (.arr hinner .nil))
  have hv : JValue c7s := JValue.obj hsi
  have hnum : NumFollow c7s c7rest := by
    intro c t hst hc
    have hc1 : (some '{' : Option Char) = some c := by
      rw [show (some '{' : Option Char) = c7s.head? from rfl, hst]
      rfl
    injection hc1 with h
    subst h
    exact absurd hc (by decide)
  exact c7_value_span_boundary c7ws c7s c7rest (by decide) hv hnum

end Jsonj
